import Mathlib

/-!
Verification development for the markdown i18n segmenter of
`scripts/i18n_utils.py`: the placeholder codec (`sanitize_text`,
`PlaceholderManager`), the slug generator (`slugify`), and the block
scanner (`collect_markdown_segments`).

Texts are modelled as `List Char`; the Python regular-expression passes
are modelled as deterministic leftmost matchers (each of the regexes in
the source is deterministic: every quantifier stops at a character class
boundary, so backtracking can never produce a different match), applied
by a single generic left-to-right substitution combinator that mirrors
`re.sub`.  Character classes (`\s`, `\d`, `[A-Z]`) are modelled over
ASCII, which covers every concrete input in this development.
-/

set_option maxRecDepth 8000

namespace I18n

/-- ASCII whitespace: the characters matched by Python's `\s` and stripped
by `str.strip()` on ASCII text. -/
def isWs (c : Char) : Bool :=
  c == ' ' || c == '\t' || c == '\n' || c == '\r' || c == '\x0b' || c == '\x0c'

def lstripWs (l : List Char) : List Char := l.dropWhile isWs

def rstripWs (l : List Char) : List Char := (l.reverse.dropWhile isWs).reverse

/-- Python `str.strip()` on ASCII text. -/
def stripWs (l : List Char) : List Char := rstripWs (lstripWs l)

/-- Python `str.strip(c)` for a single strip character. -/
def stripChar (c : Char) (l : List Char) : List Char :=
  ((l.dropWhile (· == c)).reverse.dropWhile (· == c)).reverse

/-- Python `str.rstrip(c)` for a single strip character. -/
def rstripChar (c : Char) (l : List Char) : List Char :=
  (l.reverse.dropWhile (· == c)).reverse

/-- Decimal digits of a natural number, least significant last; structural
fuel recursion (the fuel `n + 1` always suffices, since `n / 10 < n` for
`n ≥ 1`), so that the kernel can evaluate it. -/
def natCharsAux : Nat → Nat → List Char
  | 0, _ => []
  | f + 1, n =>
    if n < 10 then [Char.ofNat (48 + n)]
    else natCharsAux f (n / 10) ++ [Char.ofNat (48 + n % 10)]

/-- Decimal representation of a natural number, as Python's `f"{n}"`. -/
def natChars (n : Nat) : List Char := natCharsAux (n + 1) n

/-- Python `str.upper()` on ASCII text. -/
def upperChars (l : List Char) : List Char := l.map Char.toUpper

/-- `PlaceholderManager`: the counter and the ordered `(token, original)`
record list. -/
structure Mgr where
  counter : Nat
  items : List (List Char × List Char)
deriving DecidableEq, Repr

/-- `PlaceholderManager.add`: bump the counter, build the token
`[[KIND_n]]`, append the record, return the token. -/
def Mgr.add (m : Mgr) (kind orig : List Char) : List Char × Mgr :=
  let token := '[' :: '[' :: upperChars kind ++ '_' :: natChars (m.counter + 1) ++ [']', ']']
  (token, ⟨m.counter + 1, m.items ++ [(token, orig)]⟩)

/-- Python `str.replace` (all occurrences, left to right, non-overlapping)
restricted to a non-empty needle; the second `Nat` argument counts
characters still to be skipped after a replacement, which keeps the
recursion structural in the text. -/
def replaceAll (needle rep : List Char) : List Char → Nat → List Char
  | [], _ => []
  | _ :: cs, k + 1 => replaceAll needle rep cs k
  | c :: cs, 0 =>
    if !needle.isEmpty && needle.isPrefixOf (c :: cs) then
      rep ++ replaceAll needle rep cs (needle.length - 1)
    else c :: replaceAll needle rep cs 0

/-- `PlaceholderManager.restore`: substitute every record back, in
insertion order. -/
def Mgr.restore (m : Mgr) (text : List Char) : List Char :=
  m.items.foldl (fun t r => replaceAll r.1 r.2 t 0) text

/-- Generic model of `re.sub` with a replacement that may create
placeholder records.  `mAt s = some n` means the regex matches the prefix
of length `n + 1` of the suffix `s`; the combinator scans left to right,
replaces each leftmost match and resumes after it.  The `Nat` argument is
the number of already-replaced characters still to drop, keeping the
recursion structural. -/
def mSub (mAt : List Char → Option Nat) (rep : List Char → Mgr → List Char × Mgr) :
    List Char → Nat → Mgr → List Char × Mgr
  | [], _, m => ([], m)
  | _ :: cs, k + 1, m => mSub mAt rep cs k m
  | c :: cs, 0, m =>
    match mAt (c :: cs) with
    | some n =>
      let p := rep (List.take (n + 1) (c :: cs)) m
      let q := mSub mAt rep cs n p.2
      (p.1 ++ q.1, q.2)
    | none =>
      let q := mSub mAt rep cs 0 m
      (c :: q.1, q.2)

/-- Generic model of `re.sub` with a pure replacement (no records). -/
def pSub (mAt : List Char → Option Nat) (rep : List Char → List Char) :
    List Char → Nat → List Char
  | [], _ => []
  | _ :: cs, k + 1 => pSub mAt rep cs k
  | c :: cs, 0 =>
    match mAt (c :: cs) with
    | some n => rep (List.take (n + 1) (c :: cs)) ++ pSub mAt rep cs n
    | none => c :: pSub mAt rep cs 0

/-- Matcher for the inline-code regex `` `([^`]+)` ``. -/
def matchCode : List Char → Option Nat
  | '`' :: rest =>
    match rest.findIdx? (· == '`') with
    | some k => if k = 0 then none else some (k + 1)
    | none => none
  | _ => none

/-- The parsed pieces of a markdown link match:
`(!)?\[(?P<text>[^\]]+)\]\((?P<url>[^)\s]+)(?P<title>\s+"[^"]*")?\)`. -/
structure LinkParts where
  bang : Bool
  txt : List Char
  url : List Char
  title : List Char
deriving DecidableEq, Repr

/-- Parse the link regex starting at `[` (no `!`).  Returns the parts and
the number of characters consumed.  Mirrors the regex: the text class
`[^\]]+` stops at the first `]`, the url class `[^)\s]+` stops at the
first `)` or whitespace, the optional title group `\s+"[^"]*"` is tried
greedily and dropped if it (or the following `\)`) fails. -/
def parseLinkCore (l : List Char) : Option (LinkParts × Nat) :=
  match l with
  | '[' :: r =>
    let t := r.takeWhile (· != ']')
    if t.length = 0 then none
    else if r.length ≤ t.length then none
    else
      match r.drop (t.length + 1) with
      | '(' :: r2 =>
        let u := r2.takeWhile (fun c => !isWs c && c != ')')
        if u.length = 0 then none
        else
          let afterUrl := r2.drop u.length
          let ws := afterUrl.takeWhile isWs
          let titled : Option (List Char × Nat) :=
            if ws.length = 0 then none
            else match afterUrl.drop ws.length with
              | '"' :: r3 =>
                let q := r3.takeWhile (· != '"')
                if r3.length ≤ q.length then none
                else
                  match r3.drop (q.length + 1) with
                  | ')' :: _ => some (ws ++ '"' :: q ++ ['"'], ws.length + q.length + 2)
                  | _ => none
              | _ => none
          match titled with
          | some (titleGroup, titleLen) =>
            some (⟨false, t, u, titleGroup⟩, t.length + u.length + titleLen + 4)
          | none =>
            match afterUrl with
            | ')' :: _ => some (⟨false, t, u, []⟩, t.length + u.length + 4)
            | _ => none
      | _ => none
  | _ => none

/-- Parse the link regex including the optional `!`. -/
def parseLink (l : List Char) : Option (LinkParts × Nat) :=
  match l with
  | '!' :: r =>
    match parseLinkCore r with
    | some (p, len) => some ({ p with bang := true }, len + 1)
    | none => none
  | _ => parseLinkCore l

/-- Matcher for the link regex. -/
def matchLink (l : List Char) : Option Nat :=
  (parseLink l).map (fun pr => pr.2 - 1)

/-- The replacement of the link pass: protect the url (and the title, when
present) behind tokens, keep the link text inline. -/
def replLink (span : List Char) (m : Mgr) : List Char × Mgr :=
  match parseLink span with
  | some (p, _) =>
    let ut := m.add "URL".data p.url
    let rest :=
      if p.title.isEmpty then ut
      else
        let tt := ut.2.add "TITLE".data p.title
        (ut.1 ++ tt.1, tt.2)
    ((if p.bang then ['!'] else []) ++ '[' :: p.txt ++ ']' :: '(' :: rest.1 ++ [')'], rest.2)
  | none => (span, m)

/-- Matcher for the bare-url regex `https?://[^\s)]+`. -/
def matchBareUrl (l : List Char) : Option Nat :=
  if "https://".data.isPrefixOf l then
    let w := (l.drop 8).takeWhile (fun c => !isWs c && c != ')')
    if w.length = 0 then none else some (7 + w.length)
  else if "http://".data.isPrefixOf l then
    let w := (l.drop 7).takeWhile (fun c => !isWs c && c != ')')
    if w.length = 0 then none else some (6 + w.length)
  else none

/-- Matcher for the angle-bracket regex `<[^>]+>`. -/
def matchAngle : List Char → Option Nat
  | '<' :: rest =>
    let w := rest.takeWhile (· != '>')
    if w.length = 0 then none
    else if rest.length ≤ w.length then none
    else some (w.length + 1)
  | _ => none

/-- Matcher for the variable regex `\{[^{}\s][^{}]*\}`. -/
def matchVar : List Char → Option Nat
  | '{' :: rest =>
    match rest with
    | [] => none
    | c :: t =>
      if c == '{' || c == '}' || isWs c then none
      else
        let w := t.takeWhile (fun d => d != '{' && d != '}')
        if t.length ≤ w.length then none
        else match t.get? w.length with
          | some '}' => some (w.length + 2)
          | _ => none
  | _ => none

/-- Replacement that turns the whole match into one token of a fixed kind. -/
def tokRepl (kind : List Char) (span : List Char) (m : Mgr) : List Char × Mgr :=
  m.add kind span

/-- Replacement of the angle pass: kind `URL` when the span starts with
`<http`, else `HTML`. -/
def angleRepl (span : List Char) (m : Mgr) : List Char × Mgr :=
  m.add (if "<http".data.isPrefixOf span then "URL".data else "HTML".data) span

/-- `sanitize_text`: the five ordered substitution passes, each scanning
the output of the previous one, threading a fresh `PlaceholderManager`. -/
def sanitizeText (raw : List Char) : List Char × Mgr :=
  let s1 := mSub matchCode (tokRepl "CODE".data) raw 0 ⟨0, []⟩
  let s2 := mSub matchLink replLink s1.1 0 s1.2
  let s3 := mSub matchBareUrl (tokRepl "URL".data) s2.1 0 s2.2
  let s4 := mSub matchAngle angleRepl s3.1 0 s3.2
  mSub matchVar (tokRepl "VAR".data) s4.1 0 s4.2

/-- Matcher for the placeholder-token regex `\[\[[A-Z]+_\d+\]\]`. -/
def matchToken : List Char → Option Nat
  | '[' :: '[' :: r =>
    let u := r.takeWhile (fun c => 'A' ≤ c && c ≤ 'Z')
    if u.length = 0 then none
    else
      match r.drop u.length with
      | '_' :: r2 =>
        let d := r2.takeWhile (fun c => '0' ≤ c && c ≤ '9')
        if d.length = 0 then none
        else match r2.drop d.length with
          | ']' :: ']' :: _ => some (u.length + d.length + 4)
          | _ => none
      | _ => none
  | _ => none

/-- `_normalise_slug_text`: strip placeholder tokens to a space, drop
non-ASCII code points (the composite of `unicodedata.normalize("NFKD", ·)`
and `encode("ascii", "ignore")` is modelled as plain ASCII filtering,
which is exact on ASCII input), lowercase, collapse runs outside
`[a-z0-9]` to one hyphen, trim hyphens. -/
def normaliseSlugText (text : List Char) : List Char :=
  let t1 := pSub matchToken (fun _ => [' ']) text 0
  let t2 := t1.filter (fun c => c.toNat < 128)
  let t3 := t2.map Char.toLower
  let t4 := pSub
    (fun l =>
      let w := l.takeWhile (fun c => !(('a' ≤ c && c ≤ 'z') || ('0' ≤ c && c ≤ '9')))
      if w.length = 0 then none else some (w.length - 1))
    (fun _ => ['-']) t3 0
  stripChar '-' t4

/-- `slugify`: normalised slug, or the caller-supplied default when empty. -/
def slugify (text : List Char) (dflt : List Char := "section".data) : List Char :=
  let s := normaliseSlugText text
  if s.isEmpty then dflt else s

/-- Python `str.splitlines()` restricted to its ASCII line boundaries
(`\r\n`, `\n`, `\r`, `\x0b`, `\x0c`, `\x1c`, `\x1d`, `\x1e`; the non-ASCII
boundaries `\x85`, U+2028, U+2029 do not occur in this development's
inputs).  A trailing boundary produces no empty final line. -/
def splitLinesGo (acc : List Char) : List Char → List (List Char)
  | [] => if acc.isEmpty then [] else [acc]
  | '\r' :: '\n' :: rest => acc :: splitLinesGo [] rest
  | '\r' :: rest => acc :: splitLinesGo [] rest
  | '\n' :: rest => acc :: splitLinesGo [] rest
  | '\x0b' :: rest => acc :: splitLinesGo [] rest
  | '\x0c' :: rest => acc :: splitLinesGo [] rest
  | '\x1c' :: rest => acc :: splitLinesGo [] rest
  | '\x1d' :: rest => acc :: splitLinesGo [] rest
  | '\x1e' :: rest => acc :: splitLinesGo [] rest
  | c :: rest => splitLinesGo (acc ++ [c]) rest

def splitLines (l : List Char) : List (List Char) := splitLinesGo [] l

/-- The block-specific `metadata` dictionaries of `Segment`. -/
inductive Metadata where
  | none
  | heading (level : Nat) (slug : List Char)
  | listItem (indent marker : List Char)
  | para (lines : List (List Char))
deriving DecidableEq, Repr

/-- The `Segment` dataclass. -/
structure Segment where
  identifier : List Char
  file_path : List Char
  start_line : Nat
  block_type : List Char
  msgid : List Char
  placeholders : List (List Char × List Char)
  context_path : List Char
  order : Nat
  metadata : Metadata
deriving DecidableEq, Repr

/-- `Segment.restore_placeholders`. -/
def Segment.restorePh (seg : Segment) (text : List Char) : List Char :=
  seg.placeholders.foldl (fun t r => replaceAll r.1 r.2 t 0) text

/-- Dictionary lookup with default 0 (`dict.get(key, 0)`), for the
counter dictionaries of the scanner. -/
def lookupNat {α : Type} [DecidableEq α] (d : List (α × Nat)) (k : α) : Nat :=
  match d.find? (fun p => p.1 = k) with
  | some p => p.2
  | none => 0

/-- Dictionary assignment (`d[key] = v`): replace the entry in place when
the key is present, else append.  (Stated as replace-first; the scanner's
dictionaries are built only through this function, so keys are unique and
replace-first coincides with the dictionary update.) -/
def setNat {α : Type} [DecidableEq α] (d : List (α × Nat)) (k : α) (v : Nat) :
    List (α × Nat) :=
  match d with
  | [] => [(k, v)]
  | p :: rest => if p.1 = k then (k, v) :: rest else p :: setNat rest k v

/-- The mutable scan state of `collect_markdown_segments`: the output
list, the heading stack (top at the end, as the Python list), the three
counter dictionaries, the pending paragraph, and the fence state. -/
structure ScanState where
  segments : List Segment
  headingStack : List (Nat × List Char)
  slugCounters : List ((Nat × List Char) × Nat)
  blockCounters : List ((List Char × List Char) × Nat)
  paragraphLines : List (List Char)
  paragraphStart : Option Nat
  inFence : Bool
  fenceMarker : Option (List Char)
  order : Nat
deriving DecidableEq, Repr

def initState : ScanState :=
  ⟨[], [], [], [], [], Option.none, false, Option.none, 0⟩

/-- `current_context`: `"root"` for an empty stack, else the `#`-joined
synthetic heading ids, oldest first. -/
def currentContext (stack : List (Nat × List Char)) : List Char :=
  if stack.isEmpty then "root".data
  else List.intercalate ['#'] (stack.map (·.2))

/-- Identifier concatenation `f"{path}#{ctx}#{tail}"`. -/
def mkIdent (path ctx tl : List Char) : List Char :=
  path ++ '#' :: ctx ++ '#' :: tl

/-- The identifier suffix letter for non-heading blocks (`suffix_map` with
its `block_type` fallback). -/
def sfxOf (bt : List Char) : List Char :=
  if bt = "paragraph".data then "p".data
  else if bt = "list_item".data then "li".data
  else if bt = "blockquote".data then "q".data
  else bt

/-- `register_segment`: sanitize, drop when empty after trimming,
build the identifier from the current context, bump the order counter,
append the segment. -/
def registerSegment (path : List Char) (bt : List Char) (startLine : Nat)
    (content : List Char) (md : Metadata) (s : ScanState) : ScanState :=
  let sm := sanitizeText content
  if (stripWs sm.1).isEmpty then s
  else
    let ctx := currentContext s.headingStack
    let idCtrs : List Char × List ((List Char × List Char) × Nat) :=
      if bt = "heading".data then (mkIdent path ctx "title".data, s.blockCounters)
      else
        let key := (ctx, bt)
        let c := lookupNat s.blockCounters key + 1
        (mkIdent path ctx (sfxOf bt ++ '-' :: natChars c), setNat s.blockCounters key c)
    { s with
      blockCounters := idCtrs.2
      order := s.order + 1
      segments := s.segments ++
        [{ identifier := idCtrs.1
           file_path := path
           start_line := startLine
           block_type := bt
           msgid := stripWs sm.1
           placeholders := sm.2.items
           context_path := ctx
           order := s.order + 1
           metadata := md }] }

/-- `flush_paragraph`: register the pending paragraph (when its
newline-trimmed text is not blank) and clear the buffer. -/
def flushParagraph (path : List Char) (s : ScanState) : ScanState :=
  if s.paragraphLines.isEmpty then s
  else
    let text := stripChar '\n' (List.intercalate ['\n'] s.paragraphLines)
    let s1 :=
      if (stripWs text).isEmpty then s
      else registerSegment path "paragraph".data (s.paragraphStart.getD 1) text
        (Metadata.para s.paragraphLines) s
    { s1 with paragraphLines := [], paragraphStart := Option.none }

/-- The fence regex ``^(\s*)(`{3,}|~{3,})`` applied with `re.match`:
optional leading whitespace, then the maximal run of at least three
backticks or tildes, which is the fence marker. -/
def fenceCheck (l : List Char) : Option (List Char) :=
  let r := l.dropWhile isWs
  match r with
  | '`' :: _ =>
    let run := r.takeWhile (· == '`')
    if 3 ≤ run.length then some run else none
  | '~' :: _ =>
    let run := r.takeWhile (· == '~')
    if 3 ≤ run.length then some run else none
  | _ => none

/-- The heading regex `^(#{1,6})\s+(.*)$` applied to the stripped line:
one to six `#`, mandatory whitespace, then the heading text. -/
def headingCheck (stripped : List Char) : Option (Nat × List Char) :=
  let hs := stripped.takeWhile (· == '#')
  if hs.length = 0 || 6 < hs.length then none
  else
    let r := stripped.drop hs.length
    let ws := r.takeWhile isWs
    if ws.length = 0 then none
    else some (hs.length, r.drop ws.length)

/-- The list-marker alternative `[-+*]|\d+\.`. -/
def markerCheck (r : List Char) : Option (List Char × List Char) :=
  match r with
  | [] => none
  | c :: rest =>
    if c == '-' || c == '+' || c == '*' then some ([c], rest)
    else
      let d := r.takeWhile Char.isDigit
      if d.length = 0 then none
      else match r.drop d.length with
        | '.' :: rest2 => some (d ++ ['.'], rest2)
        | _ => none

/-- The list regex `^(\s*)([-+*]|\d+\.)\s+(.*)$`: indent, marker,
mandatory whitespace, content. -/
def listCheck (l : List Char) : Option (List Char × List Char × List Char) :=
  let ind := l.takeWhile isWs
  let r := l.drop ind.length
  match markerCheck r with
  | some (mk, after) =>
    let ws := after.takeWhile isWs
    if ws.length = 0 then none
    else some (ind, mk, after.drop ws.length)
  | none => none

/-- `len(line) - len(line.lstrip(" "))`: leading spaces only. -/
def leadingSpaces (l : List Char) : Nat := (l.takeWhile (· == ' ')).length

/-- `len(indent.expandtabs(4))`: tabs advance to the next multiple of 4. -/
def expandLen (ind : List Char) : Nat :=
  ind.foldl (fun col c => if c == '\t' then col + (4 - col % 4) else col + 1) 0

/-- The blockquote line transformation `q_line.lstrip()[1:].lstrip()`. -/
def quoteStrip (l : List Char) : List Char := lstripWs ((lstripWs l).drop 1)

/-- The accumulation the scanner may be in the middle of: none, a list
item (with the expanded base indent, the raw indent and marker, the
accumulated content lines, and the start line), or a blockquote. -/
inductive ScanMode where
  | normal
  | inItem (base : Nat) (indent marker : List Char) (acc : List (List Char)) (startLine : Nat)
  | inQuote (acc : List (List Char)) (startLine : Nat)
deriving DecidableEq, Repr

/-- Register an accumulated list item. -/
def registerItem (path : List Char) (ind mk : List Char) (acc : List (List Char))
    (startLine : Nat) (s : ScanState) : ScanState :=
  registerSegment path "list_item".data startLine
    (stripChar '\n' (List.intercalate ['\n'] acc)) (Metadata.listItem ind mk) s

/-- Register an accumulated blockquote. -/
def registerQuote (path : List Char) (acc : List (List Char)) (startLine : Nat)
    (s : ScanState) : ScanState :=
  registerSegment path "blockquote".data startLine
    (stripChar '\n' (List.intercalate ['\n'] acc)) Metadata.none s

/-- The per-`(level, base_slug)` disambiguation of heading slugs: the
first occurrence keeps the bare slug, later ones append `-{count+1}`. -/
def assignSlug (counters : List ((Nat × List Char) × Nat)) (level : Nat)
    (base : List Char) : List Char × List ((Nat × List Char) × Nat) :=
  let count := lookupNat counters (level, base)
  ((if count ≠ 0 then base ++ '-' :: natChars (count + 1) else base),
    setNat counters (level, base) (count + 1))

/-- Pop every stack entry whose level is at least `level`
(`while heading_stack and heading_stack[-1][0] >= level: pop`). -/
def popGE (level : Nat) (stack : List (Nat × List Char)) : List (Nat × List Char) :=
  (stack.reverse.dropWhile (fun e => level ≤ e.1)).reverse

/-- One line processed in the normal state: the branch cascade of the
scanner's main loop (fence, fenced skip, heading, list start, quote
start, blank, paragraph accumulation).  Returns the mode the following
lines are scanned in. -/
def normalStep (path : List Char) (l : List Char) (lineNo : Nat) (s : ScanState) :
    ScanMode × ScanState :=
  match fenceCheck l with
  | some marker =>
    if !s.inFence then
      (ScanMode.normal,
        { flushParagraph path s with inFence := true, fenceMarker := some marker })
    else if s.fenceMarker = some marker then
      (ScanMode.normal, { s with inFence := false, fenceMarker := Option.none })
    else (ScanMode.normal, s)
  | Option.none =>
    if s.inFence then (ScanMode.normal, s)
    else
      let stripped := stripWs l
      match headingCheck stripped with
      | some (level, text) =>
        let s1 := flushParagraph path s
        let raw := stripWs (rstripChar '#' text)
        let stack1 := popGE level s1.headingStack
        let base := slugify raw
        let sc := assignSlug s1.slugCounters level base
        let s2 := { s1 with
          headingStack := stack1 ++ [(level, 'h' :: natChars level ++ '-' :: sc.1)]
          slugCounters := sc.2 }
        (ScanMode.normal,
          registerSegment path "heading".data lineNo raw (Metadata.heading level sc.1) s2)
      | Option.none =>
        match listCheck l with
        | some (ind, mk, content) =>
          (ScanMode.inItem (expandLen ind) ind mk [content] lineNo, flushParagraph path s)
        | Option.none =>
          if stripped.take 1 = ['>'] then
            (ScanMode.inQuote [quoteStrip l] lineNo, flushParagraph path s)
          else if stripped.isEmpty then (ScanMode.normal, flushParagraph path s)
          else
            (ScanMode.normal,
              { s with
                paragraphLines := s.paragraphLines ++ [l]
                paragraphStart :=
                  if s.paragraphLines.isEmpty then some lineNo else s.paragraphStart })

/-- End-of-document: register whatever accumulation is still open (the
inner loops of the scanner register on running out of lines). -/
def finalizeMode (path : List Char) (mode : ScanMode) (s : ScanState) : ScanState :=
  match mode with
  | ScanMode.normal => s
  | ScanMode.inItem _ ind mk acc st => registerItem path ind mk acc st s
  | ScanMode.inQuote acc st => registerQuote path acc st s

/-- The scanner's main loop, one line per step.  In `inItem` and
`inQuote` the continuation tests of the inner loops run first; a
terminating line registers the accumulated block and is then reprocessed
by the normal branch cascade, exactly as the Python inner loops `break`
without consuming the line. -/
def scanGo (path : List Char) : List (List Char) → Nat → ScanMode → ScanState → ScanState
  | [], _, mode, s => flushParagraph path (finalizeMode path mode s)
  | l :: ls, n, ScanMode.normal, s =>
    let ms := normalStep path l n s
    scanGo path ls (n + 1) ms.1 ms.2
  | l :: ls, n, ScanMode.inItem base ind mk acc st, s =>
    if (listCheck l).isSome && leadingSpaces l ≤ base then
      let ms := normalStep path l n (registerItem path ind mk acc st s)
      scanGo path ls (n + 1) ms.1 ms.2
    else if (stripWs l).isEmpty then
      scanGo path ls (n + 1) (ScanMode.inItem base ind mk (acc ++ [[]]) st) s
    else if base < leadingSpaces l then
      scanGo path ls (n + 1) (ScanMode.inItem base ind mk (acc ++ [l.drop base]) st) s
    else
      let ms := normalStep path l n (registerItem path ind mk acc st s)
      scanGo path ls (n + 1) ms.1 ms.2
  | l :: ls, n, ScanMode.inQuote acc st, s =>
    if (stripWs l).take 1 = ['>'] then
      scanGo path ls (n + 1) (ScanMode.inQuote (acc ++ [quoteStrip l]) st) s
    else if (stripWs l).isEmpty then
      scanGo path ls (n + 1) (ScanMode.inQuote (acc ++ [[]]) st) s
    else
      let ms := normalStep path l n (registerQuote path acc st s)
      scanGo path ls (n + 1) ms.1 ms.2

/-- `collect_markdown_segments`. -/
def collectMarkdownSegments (markdown : List Char) (relPath : List Char) : List Segment :=
  (scanGo relPath (splitLines markdown) 1 ScanMode.normal initState).segments

/-- The placeholder token string `[[KIND_n]]`. -/
def tokenChars (kind : List Char) (n : Nat) : List Char :=
  '[' :: '[' :: kind ++ '_' :: natChars n ++ [']', ']']

/-- The five placeholder kinds the codec emits. -/
def tokenKinds : List (List Char) :=
  ["CODE".data, "URL".data, "TITLE".data, "HTML".data, "VAR".data]

/-- Decimal value of a digit list (left inverse of `natChars`). -/
def natVal (l : List Char) : Nat :=
  l.foldl (fun a c => a * 10 + (c.toNat - 48)) 0

/-- The example document of the specification. -/
def docC2 : List Char := "# Title\n\nSee [docs](http://x.test \"T\") for `code`.\n".data

/-- A document with three same-level headings whose disambiguated slugs
collide: the second `a` gets slug `a-2`, and the literal text `a 2` also
slugifies to `a-2`. -/
def docC4 : List Char := "# a\n# a\n# a 2\n".data

/-- Strictly increasing heading-stack levels, bottom to top: the shape
every reachable heading stack has. -/
def StackSorted (st : List (Nat × List Char)) : Prop :=
  List.Pairwise (fun a b => a.1 < b.1) st

/-- The slug `assignSlug` hands out when the counter for the pair stands
at `c`: the bare base slug for `c = 0`, else `base-{c+1}`. -/
def slugAt (base : List Char) (c : Nat) : List Char :=
  if c ≠ 0 then base ++ '-' :: natChars (c + 1) else base

/-- The slugs assigned to a sequence of `(level, base_slug)` heading keys,
threading the disambiguation counters. -/
def assignSlugs (ks : List (Nat × List Char)) (cs : List ((Nat × List Char) × Nat)) :
    List (List Char) :=
  match ks with
  | [] => []
  | (l, b) :: rest =>
    let r := assignSlug cs l b
    r.1 :: assignSlugs rest r.2

/-- The slugs assigned to the occurrences of one particular
`(level, base_slug)` key, in order of occurrence. -/
def selSlugs (ks : List (Nat × List Char)) (cs : List ((Nat × List Char) × Nat))
    (l : Nat) (b : List Char) : List (List Char) :=
  ((ks.zip (assignSlugs ks cs)).filter (fun p => p.1 = (l, b))).map (·.2)

/-- How many of the keys equal `(l, b)`. -/
def countKey (ks : List (Nat × List Char)) (l : Nat) (b : List Char) : Nat :=
  (ks.filter (fun k => k = (l, b))).length

/-- A well-numbered placeholder manager: the counter equals the number of
records and the `i`-th record's token is `[[KIND_{i+1}]]` for one of the
five kinds — placeholder numbering starts at 1 and increments by one per
record. -/
structure MgrNumbered (m : Mgr) : Prop where
  cnt : m.counter = m.items.length
  toks : ∀ i (h : i < m.items.length), ∃ k, k ∈ tokenKinds
    ∧ (m.items.get ⟨i, h⟩).1 = tokenChars k (i + 1)

/-- Every emitted segment carries exactly the record list of one fresh
`sanitize_text` run over its own content. -/
structure PlacOk (s : ScanState) : Prop where
  all : ∀ seg ∈ s.segments, ∃ content, seg.placeholders = (sanitizeText content).2.items

/-- The non-heading block kinds the scanner registers. -/
def otherKinds : List (List Char) :=
  ["paragraph".data, "list_item".data, "blockquote".data]

/-- The identifier-shape invariant of the scan state: every emitted
segment is either a heading, whose identifier is
`{path}#{context_path}#title`, or one of the three other kinds; and for
every `(context, block_type)` pair the identifiers of its segments, in
emission order, are `{path}#{ctx}#{suffix}-1 .. -{counter}` where
`counter` is that pair's entry in `block_counters`. -/
structure IdsOk (path : List Char) (s : ScanState) : Prop where
  shape : ∀ seg ∈ s.segments,
    (seg.block_type = "heading".data
      ∧ seg.identifier = mkIdent path seg.context_path "title".data)
    ∨ seg.block_type ∈ otherKinds
  keyed : ∀ ctx bt, bt ∈ otherKinds →
    ((s.segments.filter
        (fun g => g.context_path = ctx ∧ g.block_type = bt)).map (·.identifier))
      = (List.range (lookupNat s.blockCounters (ctx, bt))).map
          (fun j => mkIdent path ctx (sfxOf bt ++ '-' :: natChars (j + 1)))

/-- What the angle pass guarantees of each record it adds: the original
is a complete angle-bracket span and the token kind follows the `<http`
rule. -/
def angleRecordOk (r : List Char × List Char) : Prop :=
  (∃ w, r.2 = '<' :: w ++ ['>'] ∧ w ≠ [] ∧ ∀ c ∈ w, c ≠ '>')
    ∧ (("<http".data.isPrefixOf r.2 = true ∧ ∃ nn, r.1 = tokenChars "URL".data nn)
      ∨ ("<http".data.isPrefixOf r.2 = false ∧ ∃ nn, r.1 = tokenChars "HTML".data nn))

/-- The order-counter invariant of the scan state: the counter equals the
number of emitted segments and the emitted `order` fields are `1..N` in
list position order.  (A structure rather than a conjunction, so that the
unifier never unfolds it.) -/
structure OrderOk (s : ScanState) : Prop where
  cnt : s.order = s.segments.length
  ords : s.segments.map (·.order) = List.range' 1 s.segments.length

theorem orderOk_withFence (s : ScanState) (b : Bool) (fm : Option (List Char))
    (h : OrderOk s) : OrderOk { s with inFence := b, fenceMarker := fm } :=
  ⟨h.cnt, h.ords⟩

theorem orderOk_withStack (s : ScanState) (hs : List (Nat × List Char))
    (sc : List ((Nat × List Char) × Nat)) (h : OrderOk s) :
    OrderOk { s with headingStack := hs, slugCounters := sc } :=
  ⟨h.cnt, h.ords⟩

theorem orderOk_withPara (s : ScanState) (pl : List (List Char)) (ps : Option Nat)
    (h : OrderOk s) : OrderOk { s with paragraphLines := pl, paragraphStart := ps } :=
  ⟨h.cnt, h.ords⟩

theorem orderOk_register (path bt : List Char) (sl : Nat) (content : List Char)
    (md : Metadata) (s : ScanState) (h : OrderOk s) :
    OrderOk (registerSegment path bt sl content md s) := by
  obtain ⟨h1, h2⟩ := h
  simp only [registerSegment]
  split
  · exact ⟨h1, h2⟩
  · refine ⟨?_, ?_⟩
    · simp [h1]
    · simp only [List.map_append, List.length_append, List.map_cons, List.map_nil,
        List.length_cons, List.length_nil, h1, h2]
      rw [List.range'_concat]
      simp [Nat.add_comm]

theorem orderOk_flush (path : List Char) (s : ScanState) (h : OrderOk s) :
    OrderOk (flushParagraph path s) := by
  simp only [flushParagraph]
  split
  · exact h
  · split
    · exact orderOk_withPara s _ _ h
    · exact orderOk_withPara
        (registerSegment path "paragraph".data (s.paragraphStart.getD 1)
          (stripChar '\n' (List.intercalate ['\n'] s.paragraphLines))
          (Metadata.para s.paragraphLines) s) _ _
        (orderOk_register _ _ _ _ _ _ h)

theorem orderOk_item (path ind mk : List Char) (acc : List (List Char)) (st : Nat)
    (s : ScanState) (h : OrderOk s) : OrderOk (registerItem path ind mk acc st s) :=
  orderOk_register _ _ _ _ _ _ h

theorem orderOk_quote (path : List Char) (acc : List (List Char)) (st : Nat)
    (s : ScanState) (h : OrderOk s) : OrderOk (registerQuote path acc st s) :=
  orderOk_register _ _ _ _ _ _ h

attribute [local irreducible] registerSegment flushParagraph in
theorem orderOk_normalStep (path l : List Char) (n : Nat) (s : ScanState)
    (h : OrderOk s) : OrderOk (normalStep path l n s).2 := by
  have hf := orderOk_flush path s h
  simp only [normalStep]
  split
  · split
    · exact orderOk_withFence (flushParagraph path s) _ _ hf
    · split
      · exact orderOk_withFence s _ _ h
      · exact h
  · split
    · exact h
    · split
      · exact orderOk_register _ _ _ _ _ _
          (orderOk_withStack (flushParagraph path s) _ _ hf)
      · split
        · exact hf
        · split
          · exact hf
          · split
            · exact hf
            · exact orderOk_withPara s _ _ h

theorem orderOk_finalize (path : List Char) (mode : ScanMode) (s : ScanState)
    (h : OrderOk s) : OrderOk (finalizeMode path mode s) := by
  cases mode with
  | normal => exact h
  | inItem base ind mk acc st => exact orderOk_item _ _ _ _ _ _ h
  | inQuote acc st => exact orderOk_quote _ _ _ _ h

attribute [local irreducible] registerSegment flushParagraph normalStep
  registerItem registerQuote finalizeMode in
theorem orderOk_scanGo (path : List Char) (lines : List (List Char)) (n : Nat)
    (mode : ScanMode) (s : ScanState) (h : OrderOk s) :
    OrderOk (scanGo path lines n mode s) := by
  induction lines generalizing n mode s with
  | nil =>
    rw [scanGo]
    exact orderOk_flush _ _ (orderOk_finalize _ _ _ h)
  | cons l ls ih =>
    cases mode with
    | normal =>
      rw [scanGo]
      exact ih _ _ _ (orderOk_normalStep _ _ _ _ h)
    | inItem base ind mk acc st =>
      rw [scanGo]
      split
      · exact ih _ _ _ (orderOk_normalStep _ _ _ _ (orderOk_item _ _ _ _ _ _ h))
      · split
        · exact ih _ _ _ h
        · split
          · exact ih _ _ _ h
          · exact ih _ _ _ (orderOk_normalStep _ _ _ _ (orderOk_item _ _ _ _ _ _ h))
    | inQuote acc st =>
      rw [scanGo]
      split
      · exact ih _ _ _ h
      · split
        · exact ih _ _ _ h
        · exact ih _ _ _ (orderOk_normalStep _ _ _ _ (orderOk_quote _ _ _ _ h))

/-- C5: for every document the `order` fields of the returned segments
are exactly `1, 2, ..., N` in list position order: the scanner's one
order counter is bumped exactly when a segment is appended. -/
theorem C5_order_values (markdown relPath : List Char) :
    (collectMarkdownSegments markdown relPath).map (·.order)
      = List.range' 1 (collectMarkdownSegments markdown relPath).length := by
  simp only [collectMarkdownSegments]
  exact (orderOk_scanGo relPath (splitLines markdown) 1 ScanMode.normal initState
    ⟨rfl, rfl⟩).ords

theorem flushParagraph_of_empty (path : List Char) (s : ScanState)
    (h : s.paragraphLines = []) : flushParagraph path s = s := by
  simp only [flushParagraph, h]
  rfl

theorem flushParagraph_paraEmpty (path : List Char) (s : ScanState) :
    (flushParagraph path s).paragraphLines = [] := by
  simp only [flushParagraph]
  split
  · next h => exact List.isEmpty_iff.mp h
  · split <;> rfl

theorem normalStep_fenced (path l : List Char) (n : Nat) (s : ScanState)
    (m : List Char) (h1 : s.inFence = true) (h2 : s.fenceMarker = some m)
    (h3 : fenceCheck l ≠ some m) : normalStep path l n s = (ScanMode.normal, s) := by
  cases hfc : fenceCheck l with
  | none => simp [normalStep, hfc, h1]
  | some marker =>
    have hne : m ≠ marker := by
      intro e
      exact h3 (by rw [hfc, e])
    simp only [normalStep, hfc, h1, Bool.not_true, Bool.false_eq_true, if_false, h2]
    rw [if_neg]
    intro e
    exact hne (Option.some.inj e)

theorem scanGo_fenced (path : List Char) (ls : List (List Char)) (n : Nat)
    (s : ScanState) (m : List Char) (h1 : s.inFence = true)
    (h2 : s.fenceMarker = some m) (h3 : ∀ l ∈ ls, fenceCheck l ≠ some m) :
    scanGo path ls n ScanMode.normal s = flushParagraph path s := by
  induction ls generalizing n with
  | nil =>
    rw [scanGo]
    rfl
  | cons l ls ih =>
    rw [scanGo]
    have hstep := normalStep_fenced path l n s m h1 h2 (h3 l (List.mem_cons_self l ls))
    rw [hstep]
    exact ih (n + 1) (fun x hx => h3 x (List.mem_cons_of_mem l hx))

/-- C6: a fence-opening line with no later line whose fence marker
exactly matches it suppresses everything from the opener to the end of
the document: apart from the flush of the pending paragraph triggered by
the opener, no segment is ever emitted again; the scan is a total
function, so no error is raised. -/
theorem C6_unterminated_fence (path opener : List Char) (rest : List (List Char))
    (n : Nat) (m : List Char) (s : ScanState) (hop : fenceCheck opener = some m)
    (hnf : s.inFence = false) (hrest : ∀ l ∈ rest, fenceCheck l ≠ some m) :
    (scanGo path (opener :: rest) n ScanMode.normal s).segments
      = (flushParagraph path s).segments := by
  have hstep : normalStep path opener n s
      = (ScanMode.normal,
        { flushParagraph path s with inFence := true, fenceMarker := some m }) := by
    simp [normalStep, hop, hnf]
  have h1 : (normalStep path opener n s).1 = ScanMode.normal := by rw [hstep]
  have h2 : (normalStep path opener n s).2
      = { flushParagraph path s with inFence := true, fenceMarker := some m } := by
    rw [hstep]
  simp only [scanGo]
  rw [h1, h2]
  rw [scanGo_fenced path rest (n + 1) _ m rfl rfl hrest]
  rw [flushParagraph_of_empty path
    { flushParagraph path s with inFence := true, fenceMarker := some m }
    (show ({ flushParagraph path s with
        inFence := true, fenceMarker := some m } : ScanState).paragraphLines = []
      from flushParagraph_paraEmpty path s)]

theorem C6_witness :
    fenceCheck "```".data = some "```".data
      ∧ initState.inFence = false
      ∧ (∀ l ∈ ["hidden text".data], fenceCheck l ≠ some "```".data)
      ∧ (scanGo "doc.md".data ["```".data, "hidden text".data] 1 ScanMode.normal
          initState).segments
        = (flushParagraph "doc.md".data initState).segments := by
  refine ⟨rfl, rfl, by decide, ?_⟩
  exact C6_unterminated_fence "doc.md".data "```".data ["hidden text".data] 1
    "```".data initState rfl rfl (by decide)

theorem lookupNat_set_self {α : Type} [DecidableEq α] (d : List (α × Nat))
    (k : α) (v : Nat) : lookupNat (setNat d k v) k = v := by
  induction d with
  | nil => simp [lookupNat, setNat]
  | cons p rest ih =>
    by_cases hp : p.1 = k
    · simp [lookupNat, setNat, hp, List.find?]
    · simp only [setNat, if_neg hp]
      simp only [lookupNat, List.find?] at ih ⊢
      rw [show (decide (p.1 = k)) = false from decide_eq_false hp]
      exact ih

theorem lookupNat_set_other {α : Type} [DecidableEq α] (d : List (α × Nat))
    (k k' : α) (v : Nat) (h : k' ≠ k) :
    lookupNat (setNat d k v) k' = lookupNat d k' := by
  induction d with
  | nil => simp [lookupNat, setNat, List.find?, h, Ne.symm h]
  | cons p rest ih =>
    by_cases hp : p.1 = k
    · simp only [setNat, if_pos hp]
      simp only [lookupNat, List.find?]
      rw [show (decide (k = k')) = false from decide_eq_false (Ne.symm h),
        show (decide (p.1 = k')) = false from decide_eq_false (hp ▸ Ne.symm h)]
    · simp only [setNat, if_neg hp]
      simp only [lookupNat, List.find?] at ih ⊢
      cases hd : decide (p.1 = k')
      · exact ih
      · rfl

theorem dropWhile_desc (level : Nat) (rs : List (Nat × List Char))
    (h : List.Pairwise (fun a b => b.1 < a.1) rs) :
    rs.dropWhile (fun e => decide (level ≤ e.1))
      = rs.filter (fun e => decide (e.1 < level)) := by
  induction rs with
  | nil => rfl
  | cons r rs ih =>
    rcases List.pairwise_cons.mp h with ⟨hall, hsorted⟩
    by_cases hr : level ≤ r.1
    · rw [List.dropWhile_cons, List.filter_cons]
      simp only [decide_eq_true hr, if_true,
        show (decide (r.1 < level)) = false from decide_eq_false (by omega)]
      exact ih hsorted
    · rw [List.dropWhile_cons, List.filter_cons]
      simp only [show (decide (level ≤ r.1)) = false from decide_eq_false hr,
        show (decide (r.1 < level)) = true from decide_eq_true (by omega)]
      simp only [Bool.false_eq_true, if_false, if_true]
      congr 1
      symm
      apply List.filter_eq_self.mpr
      intro a ha
      exact decide_eq_true (by have := hall a ha; omega)

theorem popGE_filter (level : Nat) (st : List (Nat × List Char))
    (h : StackSorted st) :
    popGE level st = st.filter (fun e => decide (e.1 < level)) := by
  unfold popGE
  rw [dropWhile_desc level st.reverse (List.pairwise_reverse.mpr h)]
  rw [← List.filter_reverse, List.reverse_reverse]

theorem stackSorted_push (level : Nat) (st : List (Nat × List Char))
    (idc : List Char) (h : StackSorted st) :
    StackSorted (popGE level st ++ [(level, idc)]) := by
  rw [popGE_filter level st h]
  apply List.pairwise_append.mpr
  refine ⟨List.Pairwise.filter _ h, List.pairwise_singleton _ _, ?_⟩
  intro a ha b hb
  rcases List.mem_filter.mp ha with ⟨_, hlt⟩
  rcases List.mem_singleton.mp hb with rfl
  exact of_decide_eq_true hlt

theorem headingStack_register (path bt : List Char) (sl : Nat) (content : List Char)
    (md : Metadata) (s : ScanState) :
    (registerSegment path bt sl content md s).headingStack = s.headingStack := by
  simp only [registerSegment]
  split <;> rfl

attribute [local irreducible] registerSegment in
theorem headingStack_flush (path : List Char) (s : ScanState) :
    (flushParagraph path s).headingStack = s.headingStack := by
  simp only [flushParagraph]
  split
  · rfl
  · split
    · rfl
    · exact headingStack_register _ _ _ _ _ _

attribute [local irreducible] registerSegment flushParagraph in
theorem stackSorted_normalStep (path l : List Char) (n : Nat) (s : ScanState)
    (h : StackSorted s.headingStack) :
    StackSorted (normalStep path l n s).2.headingStack := by
  have hf : StackSorted (flushParagraph path s).headingStack := by
    rw [headingStack_flush]; exact h
  simp only [normalStep]
  split
  · split
    · exact hf
    · split
      · exact h
      · exact h
  · split
    · exact h
    · split
      · rw [headingStack_register]
        show StackSorted (popGE _ (flushParagraph path s).headingStack ++ _)
        rw [headingStack_flush]
        exact stackSorted_push _ _ _ h
      · split
        · exact hf
        · split
          · exact hf
          · split
            · exact hf
            · exact h

theorem headingStack_item (path ind mk : List Char) (acc : List (List Char))
    (st : Nat) (s : ScanState) :
    (registerItem path ind mk acc st s).headingStack = s.headingStack :=
  headingStack_register _ _ _ _ _ _

theorem headingStack_quote (path : List Char) (acc : List (List Char)) (st : Nat)
    (s : ScanState) :
    (registerQuote path acc st s).headingStack = s.headingStack :=
  headingStack_register _ _ _ _ _ _

theorem headingStack_finalize (path : List Char) (mode : ScanMode) (s : ScanState) :
    (finalizeMode path mode s).headingStack = s.headingStack := by
  cases mode with
  | normal => rfl
  | inItem base ind mk acc st => exact headingStack_item _ _ _ _ _ _
  | inQuote acc st => exact headingStack_quote _ _ _ _

attribute [local irreducible] registerSegment flushParagraph normalStep
  registerItem registerQuote finalizeMode in
theorem stackSorted_scanGo (path : List Char) (lines : List (List Char)) (n : Nat)
    (mode : ScanMode) (s : ScanState) (h : StackSorted s.headingStack) :
    StackSorted (scanGo path lines n mode s).headingStack := by
  induction lines generalizing n mode s with
  | nil =>
    rw [scanGo, headingStack_flush, headingStack_finalize]
    exact h
  | cons l ls ih =>
    cases mode with
    | normal =>
      rw [scanGo]
      exact ih _ _ _ (stackSorted_normalStep _ _ _ _ h)
    | inItem base ind mk acc st =>
      rw [scanGo]
      split
      · refine ih _ _ _ (stackSorted_normalStep _ _ _ _ ?_)
        rw [headingStack_item]
        exact h
      · split
        · exact ih _ _ _ h
        · split
          · exact ih _ _ _ h
          · refine ih _ _ _ (stackSorted_normalStep _ _ _ _ ?_)
            rw [headingStack_item]
            exact h
    | inQuote acc st =>
      rw [scanGo]
      split
      · exact ih _ _ _ h
      · split
        · exact ih _ _ _ h
        · refine ih _ _ _ (stackSorted_normalStep _ _ _ _ ?_)
          rw [headingStack_quote]
          exact h

theorem currentContext_nil : currentContext [] = "root".data := rfl

theorem currentContext_of_ne (st : List (Nat × List Char)) (h : st ≠ []) :
    currentContext st = List.intercalate ['#'] (st.map (·.2)) := by
  unfold currentContext
  rw [if_neg]
  intro he
  exact h (List.isEmpty_iff.mp he)

/-- C8: on a heading of level `L` the scanner pops exactly the stack
entries of level `≥ L` (on the strictly increasing stacks the scan can
reach) before pushing the new entry, and `current_context` is `"root"`
for the empty stack, else the `#`-joined synthetic ids, oldest first;
stacks reachable by the scan are strictly increasing: the empty initial
stack is, and every scanner step preserves it. -/
theorem C8_context_tracking :
    (∀ (level : Nat) (st : List (Nat × List Char)), StackSorted st →
        popGE level st = st.filter (fun e => decide (e.1 < level))
          ∧ ∀ idc : List Char, StackSorted (popGE level st ++ [(level, idc)]))
      ∧ currentContext [] = "root".data
      ∧ (∀ st : List (Nat × List Char), st ≠ [] →
          currentContext st = List.intercalate ['#'] (st.map (·.2)))
      ∧ (∀ (path : List Char) (lines : List (List Char)) (n : Nat) (mode : ScanMode)
          (s : ScanState), StackSorted s.headingStack →
          StackSorted (scanGo path lines n mode s).headingStack)
      ∧ StackSorted initState.headingStack := by
  refine ⟨?_, currentContext_nil, currentContext_of_ne, stackSorted_scanGo,
    List.Pairwise.nil⟩
  intro level st h
  exact ⟨popGE_filter level st h, fun idc => stackSorted_push level st idc h⟩

theorem C8_witness :
    StackSorted [(1, "h1-a".data), (2, "h2-b".data), (3, "h3-c".data)]
      ∧ popGE 2 [(1, "h1-a".data), (2, "h2-b".data), (3, "h3-c".data)]
        = [(1, "h1-a".data)]
      ∧ currentContext [(1, "h1-a".data), (2, "h2-b".data)] = "h1-a#h2-b".data := by
  refine ⟨by unfold StackSorted; decide, ?_, ?_⟩
  · exact ((C8_context_tracking.1 2 _ (by unfold StackSorted; decide)).1).trans
      (by decide)
  · exact (C8_context_tracking.2.2.1 _ (by decide)).trans (by decide)

theorem selSlugs_spec (ks : List (Nat × List Char)) :
    ∀ (cs : List ((Nat × List Char) × Nat)) (l : Nat) (b : List Char),
    selSlugs ks cs l b
      = (List.range (countKey ks l b)).map
          (fun j => slugAt b (lookupNat cs (l, b) + j)) := by
  induction ks with
  | nil => intro cs l b; rfl
  | cons k ks ih =>
    intro cs l b
    obtain ⟨l', b'⟩ := k
    by_cases hk : (l', b') = (l, b)
    · rw [show l' = l from congrArg Prod.fst hk, show b' = b from congrArg Prod.snd hk]
      simp only [selSlugs, assignSlugs, List.zip_cons_cons, List.filter_cons,
        List.map_cons, countKey] at ih ⊢
      simp only [decide_True, eq_self_iff_true, if_true, List.length_cons]
      rw [List.range_succ_eq_map]
      simp only [List.map_cons, List.map_map]
      congr 1
      rw [ih]
      apply List.map_congr_left
      intro j hj
      have hl : lookupNat (assignSlug cs l b).2 (l, b) = lookupNat cs (l, b) + 1 :=
        lookupNat_set_self cs (l, b) (lookupNat cs (l, b) + 1)
      rw [hl]
      simp only [Function.comp]
      congr 1
      omega
    · simp only [selSlugs, assignSlugs, List.zip_cons_cons, List.filter_cons,
        List.map_cons, countKey] at ih ⊢
      simp only [decide_eq_false hk, Bool.false_eq_true, if_false]
      rw [ih]
      have hl : lookupNat (assignSlug cs l' b').2 (l, b) = lookupNat cs (l, b) := by
        simp only [assignSlug]
        exact lookupNat_set_other cs (l', b') (l, b) _ (Ne.symm hk)
      rw [hl]

/-- C9: with the counters a document scan starts from, the occurrences
of one `(level, base_slug)` key receive, in order, the bare base slug and
then `base-2`, `base-3`, ...: in particular the first two same-level
headings with the same base slug get `x` and `x-2` (not `x-1`).  The
second conjunct checks this on a concrete document: the scanner stores
the disambiguated slug in the heading metadata. -/
theorem C9_heading_disambiguation :
    (∀ (ks : List (Nat × List Char)) (l : Nat) (b : List Char),
        2 ≤ countKey ks l b →
        (selSlugs ks [] l b).take 2 = [b, b ++ '-' :: natChars 2])
      ∧ (collectMarkdownSegments "# a\n# a\n".data "doc.md".data).map (·.metadata)
        = [Metadata.heading 1 ['a'], Metadata.heading 1 ['a', '-', '2']] := by
  refine ⟨?_, rfl⟩
  intro ks l b h2
  rw [selSlugs_spec]
  rw [← List.map_take, List.take_range, Nat.min_eq_left h2]
  show [slugAt b (lookupNat [] (l, b) + 0), slugAt b (lookupNat [] (l, b) + 1)] = _
  simp [slugAt, lookupNat, List.find?]

theorem C9_witness :
    2 ≤ countKey [(1, ['a']), (1, ['a']), (2, ['b'])] 1 ['a']
      ∧ (selSlugs [(1, ['a']), (1, ['a']), (2, ['b'])] [] 1 ['a']).take 2
        = [['a'], 'a' :: ['-', '2']] := by
  refine ⟨by decide, ?_⟩
  exact (C9_heading_disambiguation.1 [(1, ['a']), (1, ['a']), (2, ['b'])] 1 ['a']
    (by decide)).trans (by decide)

theorem mgr_add_numbered (m : Mgr) (kind orig : List Char)
    (hk : upperChars kind ∈ tokenKinds) (h : MgrNumbered m) :
    MgrNumbered (m.add kind orig).2 := by
  refine ⟨?_, ?_⟩
  · simp [Mgr.add, h.cnt]
  · intro i hi
    have hi' : i < m.items.length + 1 := by
      simpa [Mgr.add] using hi
    by_cases hlt : i < m.items.length
    · obtain ⟨k, hk', he⟩ := h.toks i hlt
      refine ⟨k, hk', ?_⟩
      simp only [Mgr.add, List.get_eq_getElem] at he ⊢
      rw [List.getElem_append_left hlt]
      exact he
    · have hieq : i = m.items.length := by omega
      refine ⟨upperChars kind, hk, ?_⟩
      simp only [Mgr.add, List.get_eq_getElem]
      rw [List.getElem_concat_length _ _ _ hieq]
      rw [h.cnt, hieq]
      rfl

theorem mSub_numbered (mAt : List Char → Option Nat)
    (rep : List Char → Mgr → List Char × Mgr)
    (hrep : ∀ span m, MgrNumbered m → MgrNumbered (rep span m).2) :
    ∀ (cs : List Char) (k : Nat) (m : Mgr), MgrNumbered m →
      MgrNumbered (mSub mAt rep cs k m).2 := by
  intro cs
  induction cs with
  | nil => intro k m h; exact h
  | cons c cs ih =>
    intro k m h
    match k with
    | k + 1 => exact ih k m h
    | 0 =>
      cases hm : mAt (c :: cs) with
      | none =>
        have hr := ih 0 m h
        simp only [mSub, hm]
        exact hr
      | some n =>
        have h1 := hrep (List.take (n + 1) (c :: cs)) m h
        have hr := ih n (rep (List.take (n + 1) (c :: cs)) m).2 h1
        simp only [mSub, hm]
        exact hr

theorem tokRepl_numbered (kind : List Char) (hk : upperChars kind ∈ tokenKinds) :
    ∀ (span : List Char) (m : Mgr), MgrNumbered m →
      MgrNumbered (tokRepl kind span m).2 :=
  fun span m h => mgr_add_numbered m kind span hk h

theorem replLink_numbered :
    ∀ (span : List Char) (m : Mgr), MgrNumbered m →
      MgrNumbered (replLink span m).2 := by
  intro span m h
  simp only [replLink]
  split
  · next p len heq =>
    by_cases ht : p.title.isEmpty = true
    · simp only [if_pos ht]
      exact mgr_add_numbered m "URL".data p.url (by decide) h
    · simp only [if_neg ht]
      exact mgr_add_numbered _ "TITLE".data p.title (by decide)
        (mgr_add_numbered m "URL".data p.url (by decide) h)
  · exact h

theorem angleRepl_numbered :
    ∀ (span : List Char) (m : Mgr), MgrNumbered m →
      MgrNumbered (angleRepl span m).2 := by
  intro span m h
  simp only [angleRepl]
  split
  · exact mgr_add_numbered m "URL".data span (by decide) h
  · exact mgr_add_numbered m "HTML".data span (by decide) h

theorem sanitizeText_numbered (raw : List Char) :
    MgrNumbered (sanitizeText raw).2 := by
  have h0 : MgrNumbered ⟨0, []⟩ := ⟨rfl, by intro i hi; simp at hi⟩
  simp only [sanitizeText]
  exact mSub_numbered _ _ (tokRepl_numbered "VAR".data (by decide)) _ _ _
    (mSub_numbered _ _ angleRepl_numbered _ _ _
      (mSub_numbered _ _ (tokRepl_numbered "URL".data (by decide)) _ _ _
        (mSub_numbered _ _ replLink_numbered _ _ _
          (mSub_numbered _ _ (tokRepl_numbered "CODE".data (by decide)) _ _ _ h0))))

theorem get_eq_of_list_eq {α : Type} {l l' : List α} (h : l = l') (i : Nat)
    (h1 : i < l.length) (h2 : i < l'.length) : l.get ⟨i, h1⟩ = l'.get ⟨i, h2⟩ := by
  subst h
  rfl

theorem placOk_withFence (s : ScanState) (b : Bool) (fm : Option (List Char))
    (h : PlacOk s) : PlacOk { s with inFence := b, fenceMarker := fm } :=
  ⟨h.all⟩

theorem placOk_withStack (s : ScanState) (hs : List (Nat × List Char))
    (sc : List ((Nat × List Char) × Nat)) (h : PlacOk s) :
    PlacOk { s with headingStack := hs, slugCounters := sc } :=
  ⟨h.all⟩

theorem placOk_withPara (s : ScanState) (pl : List (List Char)) (ps : Option Nat)
    (h : PlacOk s) : PlacOk { s with paragraphLines := pl, paragraphStart := ps } :=
  ⟨h.all⟩

theorem placOk_register (path bt : List Char) (sl : Nat) (content : List Char)
    (md : Metadata) (s : ScanState) (h : PlacOk s) :
    PlacOk (registerSegment path bt sl content md s) := by
  simp only [registerSegment]
  split
  · exact h
  · refine ⟨?_⟩
    intro seg hseg
    rcases List.mem_append.mp hseg with hold | hnew
    · exact h.all seg hold
    · rcases List.mem_singleton.mp hnew with rfl
      exact ⟨content, rfl⟩

theorem placOk_flush (path : List Char) (s : ScanState) (h : PlacOk s) :
    PlacOk (flushParagraph path s) := by
  simp only [flushParagraph]
  split
  · exact h
  · split
    · exact placOk_withPara s _ _ h
    · exact placOk_withPara
        (registerSegment path "paragraph".data (s.paragraphStart.getD 1)
          (stripChar '\n' (List.intercalate ['\n'] s.paragraphLines))
          (Metadata.para s.paragraphLines) s) _ _
        (placOk_register _ _ _ _ _ _ h)

theorem placOk_item (path ind mk : List Char) (acc : List (List Char)) (st : Nat)
    (s : ScanState) (h : PlacOk s) : PlacOk (registerItem path ind mk acc st s) :=
  placOk_register _ _ _ _ _ _ h

theorem placOk_quote (path : List Char) (acc : List (List Char)) (st : Nat)
    (s : ScanState) (h : PlacOk s) : PlacOk (registerQuote path acc st s) :=
  placOk_register _ _ _ _ _ _ h

attribute [local irreducible] registerSegment flushParagraph in
theorem placOk_normalStep (path l : List Char) (n : Nat) (s : ScanState)
    (h : PlacOk s) : PlacOk (normalStep path l n s).2 := by
  have hf := placOk_flush path s h
  simp only [normalStep]
  split
  · split
    · exact placOk_withFence (flushParagraph path s) _ _ hf
    · split
      · exact placOk_withFence s _ _ h
      · exact h
  · split
    · exact h
    · split
      · exact placOk_register _ _ _ _ _ _
          (placOk_withStack (flushParagraph path s) _ _ hf)
      · split
        · exact hf
        · split
          · exact hf
          · split
            · exact hf
            · exact placOk_withPara s _ _ h

theorem placOk_finalize (path : List Char) (mode : ScanMode) (s : ScanState)
    (h : PlacOk s) : PlacOk (finalizeMode path mode s) := by
  cases mode with
  | normal => exact h
  | inItem base ind mk acc st => exact placOk_item _ _ _ _ _ _ h
  | inQuote acc st => exact placOk_quote _ _ _ _ h

attribute [local irreducible] registerSegment flushParagraph normalStep
  registerItem registerQuote finalizeMode in
theorem placOk_scanGo (path : List Char) (lines : List (List Char)) (n : Nat)
    (mode : ScanMode) (s : ScanState) (h : PlacOk s) :
    PlacOk (scanGo path lines n mode s) := by
  induction lines generalizing n mode s with
  | nil =>
    rw [scanGo]
    exact placOk_flush _ _ (placOk_finalize _ _ _ h)
  | cons l ls ih =>
    cases mode with
    | normal =>
      rw [scanGo]
      exact ih _ _ _ (placOk_normalStep _ _ _ _ h)
    | inItem base ind mk acc st =>
      rw [scanGo]
      split
      · exact ih _ _ _ (placOk_normalStep _ _ _ _ (placOk_item _ _ _ _ _ _ h))
      · split
        · exact ih _ _ _ h
        · split
          · exact ih _ _ _ h
          · exact ih _ _ _ (placOk_normalStep _ _ _ _ (placOk_item _ _ _ _ _ _ h))
    | inQuote acc st =>
      rw [scanGo]
      split
      · exact ih _ _ _ h
      · split
        · exact ih _ _ _ h
        · exact ih _ _ _ (placOk_normalStep _ _ _ _ (placOk_quote _ _ _ _ h))

/-- C10: placeholder numbering restarts at 1 for every registered segment
(each `register_segment` call runs `sanitize_text`, which creates a fresh
`PlaceholderManager`): the `i`-th record of any segment of any document
carries the token `[[KIND_{i+1}]]`.  Hence the same token string can
recur across segments — in `"`a`\n\n`b`\n"` both paragraphs carry
`[[CODE_1]]` — and restoring each segment's msgid with its own records
yields that segment's own original text. -/
theorem C10_tokens_restart_per_segment :
    (∀ (markdown relPath : List Char) (seg : Segment),
        seg ∈ collectMarkdownSegments markdown relPath →
        ∀ i (h : i < seg.placeholders.length), ∃ k, k ∈ tokenKinds
          ∧ (seg.placeholders.get ⟨i, h⟩).1 = tokenChars k (i + 1))
      ∧ ((collectMarkdownSegments "`a`\n\n`b`\n".data "doc.md".data).map
          (·.placeholders)
          = [[("[[CODE_1]]".data, "`a`".data)], [("[[CODE_1]]".data, "`b`".data)]])
      ∧ ((collectMarkdownSegments "`a`\n\n`b`\n".data "doc.md".data).map
          (fun s => s.restorePh s.msgid) = ["`a`".data, "`b`".data]) := by
  refine ⟨?_, rfl, rfl⟩
  intro markdown relPath seg hseg i hi
  have hp : ∃ content, seg.placeholders = (sanitizeText content).2.items := by
    refine (placOk_scanGo relPath (splitLines markdown) 1 ScanMode.normal initState
      ⟨?_⟩).all seg hseg
    intro g hg
    exact absurd hg (List.not_mem_nil g)
  obtain ⟨content, hc⟩ := hp
  have hi' : i < (sanitizeText content).2.items.length := by rw [← hc]; exact hi
  obtain ⟨k, hk, he⟩ := (sanitizeText_numbered content).toks i hi'
  refine ⟨k, hk, ?_⟩
  rw [get_eq_of_list_eq hc i hi hi']
  exact he

theorem C10_witness :
    (collectMarkdownSegments "`a`\n\n`b`\n".data "doc.md".data).length = 2
      ∧ ∀ seg ∈ collectMarkdownSegments "`a`\n\n`b`\n".data "doc.md".data,
        ∀ i (h : i < seg.placeholders.length), ∃ k, k ∈ tokenKinds
          ∧ (seg.placeholders.get ⟨i, h⟩).1 = tokenChars k (i + 1) :=
  ⟨rfl, fun seg hseg =>
    C10_tokens_restart_per_segment.1 "`a`\n\n`b`\n".data "doc.md".data seg hseg⟩

theorem take_succ_takeWhile_length {α : Type} (p : α → Bool) (l : List α)
    (hlt : (l.takeWhile p).length < l.length) :
    ∃ a, p a = false ∧ l.take ((l.takeWhile p).length + 1) = l.takeWhile p ++ [a] := by
  induction l with
  | nil => simp at hlt
  | cons x l ih =>
    by_cases hp : p x = true
    · simp only [List.takeWhile_cons, hp, if_true, List.length_cons] at hlt ⊢
      have hlt' : (l.takeWhile p).length < l.length := by omega
      obtain ⟨a, hpa, htake⟩ := ih hlt'
      refine ⟨a, hpa, ?_⟩
      rw [List.take_succ_cons, htake]
      rfl
    · have hp' : p x = false := Bool.eq_false_iff.mpr hp
      refine ⟨x, hp', ?_⟩
      simp [List.takeWhile_cons, hp']

theorem matchAngle_sound (s : List Char) (n : Nat) (h : matchAngle s = some n) :
    ∃ w, List.take (n + 1) s = '<' :: w ++ ['>'] ∧ w ≠ [] ∧ ∀ c ∈ w, c ≠ '>' := by
  rw [matchAngle.eq_def] at h
  split at h
  · next rest =>
    simp only at h
    split at h
    · exact absurd h (by simp)
    · split at h
      · exact absurd h (by simp)
      · next hlen hrest =>
        have hn : (rest.takeWhile (· != '>')).length + 1 = n := Option.some.inj h
        have hlt : (rest.takeWhile (· != '>')).length < rest.length := by omega
        obtain ⟨a, hpa, htake⟩ := take_succ_takeWhile_length (· != '>') rest hlt
        have ha : a = '>' := by simpa using hpa
        refine ⟨rest.takeWhile (· != '>'), ?_, ?_, ?_⟩
        · rw [← hn]
          show '<' :: List.take ((rest.takeWhile (· != '>')).length + 1) rest = _
          rw [htake, ha]
          rfl
        · intro e
          rw [e] at hlen
          simp at hlen
        · intro c hc
          have := List.mem_takeWhile_imp hc
          simpa using this
  · exact absurd h (by simp)

theorem mSub_items_of (mAt : List Char → Option Nat)
    (rep : List Char → Mgr → List Char × Mgr) (C : List Char × List Char → Prop)
    (hrep : ∀ (s : List Char) (m : Mgr) (n : Nat), mAt s = some n →
      ∀ r, r ∈ (rep (List.take (n + 1) s) m).2.items → r ∈ m.items ∨ C r) :
    ∀ (cs : List Char) (k : Nat) (m : Mgr) (r : List Char × List Char),
      r ∈ (mSub mAt rep cs k m).2.items → r ∈ m.items ∨ C r := by
  intro cs
  induction cs with
  | nil => intro k m r hr; exact Or.inl hr
  | cons c cs ih =>
    intro k m r hr
    match k with
    | k + 1 => exact ih k m r hr
    | 0 =>
      cases hm : mAt (c :: cs) with
      | none =>
        apply ih 0 m r
        simpa [mSub, hm] using hr
      | some n =>
        have hr' : r ∈ (mSub mAt rep cs n
            (rep (List.take (n + 1) (c :: cs)) m).2).2.items := by
          simpa [mSub, hm] using hr
        rcases ih n _ r hr' with hin | hC
        · exact hrep (c :: cs) m n hm r hin
        · exact Or.inr hC

theorem angleRepl_records (s : List Char) (m : Mgr) (n : Nat)
    (hm : matchAngle s = some n) (r : List Char × List Char)
    (hr : r ∈ (angleRepl (List.take (n + 1) s) m).2.items) :
    r ∈ m.items ∨ angleRecordOk r := by
  obtain ⟨w, hspan, hwne, hwmem⟩ := matchAngle_sound s n hm
  simp only [angleRepl, Mgr.add] at hr
  rcases List.mem_append.mp hr with hold | hnew
  · exact Or.inl hold
  · rcases List.mem_singleton.mp hnew with rfl
    refine Or.inr ⟨⟨w, hspan, hwne, hwmem⟩, ?_⟩
    by_cases hp : "<http".data.isPrefixOf (List.take (n + 1) s) = true
    · rw [if_pos hp]
      exact Or.inl ⟨hp, m.counter + 1, rfl⟩
    · rw [if_neg hp]
      exact Or.inr ⟨Bool.eq_false_iff.mpr hp, m.counter + 1, rfl⟩

/-- C3, amended: an angle-bracket span that reaches the angle pass intact
becomes a single placeholder: every record the angle pass adds has as
original a complete span `<w>` (with `w` nonempty and free of `>`), and
its token kind is `URL` exactly when the original starts with `<http`,
else `HTML`.  Spans consumed by the earlier passes are not converted; in
particular a `<div>`-style span or a `<httpx>`-style span survives and is
tokenised whole (second and third conjuncts), while `<http://x>` is not
(see the counterexample theorem). -/
theorem C3_amended_angle_pass :
    (∀ (t : List Char) (k : Nat) (m : Mgr) (r : List Char × List Char),
        r ∈ (mSub matchAngle angleRepl t k m).2.items →
        r ∈ m.items ∨ angleRecordOk r)
      ∧ (sanitizeText "<div>".data
          = ("[[HTML_1]]".data, ⟨1, [("[[HTML_1]]".data, "<div>".data)]⟩))
      ∧ (sanitizeText "<httpx>".data
          = ("[[URL_1]]".data, ⟨1, [("[[URL_1]]".data, "<httpx>".data)]⟩)) :=
  ⟨mSub_items_of matchAngle angleRepl angleRecordOk angleRepl_records, rfl, rfl⟩

theorem C3_witness :
    ("[[HTML_1]]".data, "<div>".data)
        ∈ (mSub matchAngle angleRepl "<div>".data 0 ⟨0, []⟩).2.items
      ∧ (("[[HTML_1]]".data, "<div>".data) ∈ (⟨0, []⟩ : Mgr).items
          ∨ angleRecordOk ("[[HTML_1]]".data, "<div>".data)) :=
  ⟨by decide,
    C3_amended_angle_pass.1 "<div>".data 0 ⟨0, []⟩
      ("[[HTML_1]]".data, "<div>".data) (by decide)⟩

/-- C1: the claimed round-trip `restore(sanitize(text)) == text` fails on
the input `[a](` + line-code span + `)`, which contains no substring
matching the placeholder token pattern: the code pass replaces the code
span first, the link pass then records the already-tokenised url
`[[CODE_1]]` as the original of `[[URL_2]]`, and `restore`, applying
records in insertion order, substitutes `[[CODE_1]]` before it has been
put back into the text, so the restored text still contains the token. -/
theorem C1_restore_not_roundtrip :
    (sanitizeText "[a](`x`)".data).2.restore (sanitizeText "[a](`x`)".data).1
        = "[a]([[CODE_1]])".data
      ∧ (sanitizeText "[a](`x`)".data).2.items
        = [("[[CODE_1]]".data, "`x`".data), ("[[URL_2]]".data, "[[CODE_1]]".data)]
      ∧ "[a]([[CODE_1]])".data ≠ "[a](`x`)".data := by
  refine ⟨rfl, rfl, ?_⟩
  decide

/-- C2 counterexample: on the specification's example document the
heading segment's `context_path` is `"h1-title"`, not `"root"`: the
segment is registered after the heading is pushed, so its context
includes itself. -/
theorem C2_heading_context_not_root :
    ((collectMarkdownSegments docC2 "doc.md".data).map (·.context_path))
        = ["h1-title".data, "h1-title".data]
      ∧ "h1-title".data ≠ "root".data := by
  refine ⟨rfl, ?_⟩
  decide

/-- C2, amended: the example document yields exactly two segments, a
heading with msgid `Title` and `context_path` `"h1-title"` (the heading's
own context includes itself), and a paragraph with `context_path`
`"h1-title"` whose msgid carries the `URL`, `TITLE` and `CODE` tokens in
that left-to-right order, with `order` values 1 and 2. -/
theorem C2_example_segments :
    (collectMarkdownSegments docC2 "doc.md".data).map
        (fun s => (s.block_type, s.msgid, s.context_path, s.order))
      = [("heading".data, "Title".data, "h1-title".data, 1),
         ("paragraph".data,
          "See [docs]([[URL_2]][[TITLE_3]]) for [[CODE_1]].".data,
          "h1-title".data, 2)] := rfl

/-- C3 counterexample: the angle-bracket span `<http://x>` does not
become a single `URL` placeholder: the bare-url pass (pass 3) runs first
and consumes `http://x>` (its character class admits `>`), leaving
`<[[URL_1]]`, which the angle pass can no longer match. -/
theorem C3_autolink_split :
    (sanitizeText "<http://x>".data).1 = "<[[URL_1]]".data
      ∧ (sanitizeText "<http://x>".data).2.items
        = [("[[URL_1]]".data, "http://x>".data)]
      ∧ "http://x>".data ≠ "<http://x>".data := by
  refine ⟨rfl, rfl, ?_⟩
  decide

/-- C4 counterexample: in `docC4` the second `# a` receives synthetic id
`h1-a-2` and the heading `# a 2` independently slugifies to `a-2`, so two
heading segments share the identifier `doc.md#h1-a-2#title`. -/
theorem C4_identifier_collision :
    ((collectMarkdownSegments docC4 "doc.md".data).map (·.identifier))
        = ["doc.md#h1-a#title".data, "doc.md#h1-a-2#title".data,
           "doc.md#h1-a-2#title".data]
      ∧ ¬ List.Pairwise (· ≠ ·)
          ((collectMarkdownSegments docC4 "doc.md".data).map (·.identifier)) := by
  have e : ((collectMarkdownSegments docC4 "doc.md".data).map (·.identifier))
      = ["doc.md#h1-a#title".data, "doc.md#h1-a-2#title".data,
         "doc.md#h1-a-2#title".data] := rfl
  refine ⟨e, ?_⟩
  rw [e]
  decide

/-- C7: a block whose sanitized, trimmed content is empty registers no
segment and leaves the scan state unchanged (`register_segment` returns
early); a purely-whitespace paragraph line produces no segment at all,
while a paragraph consisting solely of one inline code span is emitted
with msgid `[[CODE_1]]`. -/
theorem C7_empty_after_sanitize_drop :
    (∀ (path bt : List Char) (sl : Nat) (content : List Char) (md : Metadata)
        (s : ScanState), (stripWs (sanitizeText content).1).isEmpty = true →
        registerSegment path bt sl content md s = s)
      ∧ collectMarkdownSegments "   \n".data "doc.md".data = []
      ∧ (collectMarkdownSegments "`code`\n".data "doc.md".data).map (·.msgid)
        = ["[[CODE_1]]".data] := by
  refine ⟨?_, rfl, rfl⟩
  intro path bt sl content md s h
  unfold registerSegment
  simp [h]

theorem C7_witness :
    (stripWs (sanitizeText "  ".data).1).isEmpty = true
      ∧ registerSegment "doc.md".data "paragraph".data 1 "  ".data Metadata.none initState
        = initState := by
  refine ⟨rfl, ?_⟩
  exact C7_empty_after_sanitize_drop.1 "doc.md".data "paragraph".data 1 "  ".data
    Metadata.none initState rfl


theorem natVal_append_singleton (l : List Char) (c : Char) :
    natVal (l ++ [c]) = natVal l * 10 + (c.toNat - 48) := by
  simp [natVal, List.foldl_append]

theorem toNat_digitChar (d : Nat) (h : d < 10) :
    (Char.ofNat (48 + d)).toNat = 48 + d := by
  interval_cases d <;> decide

theorem natVal_natCharsAux (f : Nat) : ∀ n : Nat, n < f →
    natVal (natCharsAux f n) = n := by
  induction f with
  | zero => intro n h; omega
  | succ f ih =>
    intro n h
    by_cases h10 : n < 10
    · simp only [natCharsAux, if_pos h10]
      simp [natVal, toNat_digitChar n h10]
    · simp only [natCharsAux, if_neg h10]
      rw [natVal_append_singleton]
      have hdiv : n / 10 < f := by
        have h1 : n / 10 < n := Nat.div_lt_self (by omega) (by omega)
        omega
      rw [ih (n / 10) hdiv, toNat_digitChar (n % 10) (Nat.mod_lt n (by omega))]
      omega

theorem natVal_natChars (n : Nat) : natVal (natChars n) = n :=
  natVal_natCharsAux (n + 1) n (Nat.lt_succ_self n)

theorem natChars_inj {a b : Nat} (h : natChars a = natChars b) : a = b := by
  have := congrArg natVal h
  rwa [natVal_natChars, natVal_natChars] at this

theorem natCharsAux_digits (f : Nat) : ∀ (n : Nat), ∀ c ∈ natCharsAux f n,
    ∃ d, d < 10 ∧ c = Char.ofNat (48 + d) := by
  induction f with
  | zero => intro n c hc; simp [natCharsAux] at hc
  | succ f ih =>
    intro n c hc
    by_cases h10 : n < 10
    · simp only [natCharsAux, if_pos h10, List.mem_singleton] at hc
      exact ⟨n, h10, hc⟩
    · simp only [natCharsAux, if_neg h10, List.mem_append, List.mem_singleton] at hc
      rcases hc with hc | hc
      · exact ih (n / 10) c hc
      · exact ⟨n % 10, Nat.mod_lt n (by omega), hc⟩

theorem natChars_ne_hash (n : Nat) : ∀ c ∈ natChars n, c ≠ '#' := by
  intro c hc
  obtain ⟨d, hd, rfl⟩ := natCharsAux_digits (n + 1) n c hc
  interval_cases d <;> decide

theorem append_sep_inj {x y p q : List Char} (sep : Char) (hx : sep ∉ x)
    (hy : sep ∉ y) (h : x ++ sep :: p = y ++ sep :: q) : x = y ∧ p = q := by
  induction x generalizing y with
  | nil =>
    cases y with
    | nil => simpa using h
    | cons b y =>
      simp only [List.nil_append, List.cons_append, List.cons.injEq] at h
      exact absurd (h.1.symm ▸ List.mem_cons_self b y) hy
  | cons a x ih =>
    cases y with
    | nil =>
      simp only [List.cons_append, List.nil_append, List.cons.injEq] at h
      exact absurd (h.1 ▸ List.mem_cons_self a x) hx
    | cons b y =>
      simp only [List.cons_append, List.cons.injEq] at h
      obtain ⟨rfl, h2⟩ := h
      have hx' : sep ∉ x := fun hm => hx (List.mem_cons_of_mem a hm)
      have hy' : sep ∉ y := fun hm => hy (List.mem_cons_of_mem a hm)
      obtain ⟨rfl, rfl⟩ := ih hx' hy' h2
      exact ⟨rfl, rfl⟩

theorem last_sep_inj {c1 c2 t1 t2 : List Char} (h1 : '#' ∉ t1) (h2 : '#' ∉ t2)
    (h : c1 ++ '#' :: t1 = c2 ++ '#' :: t2) : c1 = c2 ∧ t1 = t2 := by
  have hrev := congrArg List.reverse h
  simp only [List.reverse_append, List.reverse_cons] at hrev
  rw [List.append_assoc, List.append_assoc, List.singleton_append,
    List.singleton_append] at hrev
  have h1' : '#' ∉ t1.reverse := by simpa using h1
  have h2' : '#' ∉ t2.reverse := by simpa using h2
  obtain ⟨ht, hc⟩ := append_sep_inj '#' h1' h2' hrev
  constructor
  · have := congrArg List.reverse hc
    simpa using this
  · have := congrArg List.reverse ht
    simpa using this

theorem mkIdent_inj (path c1 c2 t1 t2 : List Char) (h1 : '#' ∉ t1)
    (h2 : '#' ∉ t2) (h : mkIdent path c1 t1 = mkIdent path c2 t2) :
    c1 = c2 ∧ t1 = t2 := by
  simp only [mkIdent] at h
  rw [List.append_assoc, List.append_assoc] at h
  have h' := List.append_cancel_left h
  rw [List.cons_append, List.cons_append] at h'
  have h'' := (List.cons.injEq _ _ _ _).mp h'
  exact last_sep_inj h1 h2 h''.2

theorem hash_not_mem_title : '#' ∉ "title".data := by decide

theorem otherKinds_ne_heading (bt : List Char) (h : bt ∈ otherKinds) :
    ¬bt = "heading".data := by
  simp only [otherKinds, List.mem_cons, List.not_mem_nil, or_false] at h
  rcases h with rfl | rfl | rfl <;> decide

theorem hash_not_mem_tail (bt : List Char) (h : bt ∈ otherKinds) (k : Nat) :
    '#' ∉ sfxOf bt ++ '-' :: natChars k := by
  intro hmem
  rcases List.mem_append.mp hmem with hs | hc
  · simp only [otherKinds, List.mem_cons, List.not_mem_nil, or_false] at h
    rcases h with rfl | rfl | rfl <;> revert hs <;> decide
  · rcases List.mem_cons.mp hc with he | hn
    · exact absurd he (by decide)
    · exact natChars_ne_hash k '#' hn rfl

theorem title_ne_other_tail (bt : List Char) (h : bt ∈ otherKinds) (k : Nat) :
    "title".data ≠ sfxOf bt ++ '-' :: natChars k := by
  simp only [otherKinds, List.mem_cons, List.not_mem_nil, or_false] at h
  rcases h with rfl | rfl | rfl <;> intro e <;>
    · injection e with e1 e2
      exact absurd e1 (by decide)

theorem other_tails_inj (bt1 bt2 : List Char) (h1 : bt1 ∈ otherKinds)
    (h2 : bt2 ∈ otherKinds) (k1 k2 : Nat)
    (e : sfxOf bt1 ++ '-' :: natChars k1 = sfxOf bt2 ++ '-' :: natChars k2) :
    bt1 = bt2 ∧ k1 = k2 := by
  simp only [otherKinds, List.mem_cons, List.not_mem_nil, or_false] at h1 h2
  have hdash1 : '-' ∉ sfxOf bt1 := by
    rcases h1 with rfl | rfl | rfl <;> decide
  have hdash2 : '-' ∉ sfxOf bt2 := by
    rcases h2 with rfl | rfl | rfl <;> decide
  obtain ⟨hs, hn⟩ := append_sep_inj '-' hdash1 hdash2 e
  refine ⟨?_, natChars_inj hn⟩
  rcases h1 with rfl | rfl | rfl <;> rcases h2 with rfl | rfl | rfl <;>
    first
      | rfl
      | exact absurd hs (by decide)

theorem idsOk_withFence (path : List Char) (s : ScanState) (b : Bool)
    (fm : Option (List Char)) (h : IdsOk path s) :
    IdsOk path { s with inFence := b, fenceMarker := fm } :=
  ⟨h.shape, h.keyed⟩

theorem idsOk_withStack (path : List Char) (s : ScanState)
    (hs : List (Nat × List Char)) (sc : List ((Nat × List Char) × Nat))
    (h : IdsOk path s) : IdsOk path { s with headingStack := hs, slugCounters := sc } :=
  ⟨h.shape, h.keyed⟩

theorem idsOk_withPara (path : List Char) (s : ScanState) (pl : List (List Char))
    (ps : Option Nat) (h : IdsOk path s) :
    IdsOk path { s with paragraphLines := pl, paragraphStart := ps } :=
  ⟨h.shape, h.keyed⟩

theorem idsOk_register_heading (path : List Char) (sl : Nat) (content : List Char)
    (md : Metadata) (s : ScanState) (h : IdsOk path s) :
    IdsOk path (registerSegment path "heading".data sl content md s) := by
  simp only [registerSegment]
  split
  · exact h
  · refine ⟨?_, ?_⟩
    · intro seg hseg
      rcases List.mem_append.mp hseg with hold | hnew
      · exact h.shape seg hold
      · rcases List.mem_singleton.mp hnew with rfl
        exact Or.inl ⟨rfl, rfl⟩
    · intro ctx' bt'' hbt''
      rw [List.filter_append]
      simp only [List.filter_cons, List.filter_nil]
      split
      · rw [if_neg (fun hd => (otherKinds_ne_heading bt'' hbt'')
          (of_decide_eq_true hd).2.symm)]
        rw [List.append_nil]
        exact h.keyed ctx' bt'' hbt''
      · next hfalse => exact absurd trivial hfalse

theorem idsOk_register_other (path bt : List Char) (sl : Nat) (content : List Char)
    (md : Metadata) (s : ScanState) (hbt : bt ∈ otherKinds) (h : IdsOk path s) :
    IdsOk path (registerSegment path bt sl content md s) := by
  have hne : ¬bt = "heading".data := otherKinds_ne_heading bt hbt
  simp only [registerSegment, if_neg hne]
  split
  · exact h
  · refine ⟨?_, ?_⟩
    · intro seg hseg
      rcases List.mem_append.mp hseg with hold | hnew
      · exact h.shape seg hold
      · rcases List.mem_singleton.mp hnew with rfl
        exact Or.inr hbt
    · intro ctx' bt'' hbt''
      rw [List.filter_append]
      simp only [List.filter_cons, List.filter_nil]
      by_cases hkey : currentContext s.headingStack = ctx' ∧ bt = bt''
      · obtain ⟨hc, hb⟩ := hkey
        subst hc
        subst hb
        rw [if_pos (decide_eq_true ⟨rfl, rfl⟩)]
        rw [lookupNat_set_self]
        rw [List.map_append]
        rw [h.keyed (currentContext s.headingStack) bt hbt'']
        rw [List.range_succ, List.map_append]
        congr 1
      · rw [if_neg (fun hd => hkey (of_decide_eq_true hd))]
        rw [List.append_nil]
        have hk2 : (ctx', bt'') ≠ (currentContext s.headingStack, bt) := by
          intro e
          obtain ⟨e1, e2⟩ := Prod.mk.injEq _ _ _ _ ▸ e
          exact hkey ⟨e1.symm, e2.symm⟩
        rw [lookupNat_set_other s.blockCounters _ _ _ hk2]
        exact h.keyed ctx' bt'' hbt''

theorem idsOk_flush (path : List Char) (s : ScanState) (h : IdsOk path s) :
    IdsOk path (flushParagraph path s) := by
  simp only [flushParagraph]
  split
  · exact h
  · split
    · exact idsOk_withPara path s _ _ h
    · exact idsOk_withPara path
        (registerSegment path "paragraph".data (s.paragraphStart.getD 1)
          (stripChar '\n' (List.intercalate ['\n'] s.paragraphLines))
          (Metadata.para s.paragraphLines) s) _ _
        (idsOk_register_other _ _ _ _ _ _ (by decide) h)

theorem idsOk_item (path ind mk : List Char) (acc : List (List Char)) (st : Nat)
    (s : ScanState) (h : IdsOk path s) : IdsOk path (registerItem path ind mk acc st s) :=
  idsOk_register_other _ _ _ _ _ _ (by decide) h

theorem idsOk_quote (path : List Char) (acc : List (List Char)) (st : Nat)
    (s : ScanState) (h : IdsOk path s) : IdsOk path (registerQuote path acc st s) :=
  idsOk_register_other _ _ _ _ _ _ (by decide) h

attribute [local irreducible] registerSegment flushParagraph in
theorem idsOk_normalStep (path l : List Char) (n : Nat) (s : ScanState)
    (h : IdsOk path s) : IdsOk path (normalStep path l n s).2 := by
  have hf := idsOk_flush path s h
  simp only [normalStep]
  split
  · split
    · exact idsOk_withFence path (flushParagraph path s) _ _ hf
    · split
      · exact idsOk_withFence path s _ _ h
      · exact h
  · split
    · exact h
    · split
      · exact idsOk_register_heading _ _ _ _ _
          (idsOk_withStack path (flushParagraph path s) _ _ hf)
      · split
        · exact hf
        · split
          · exact hf
          · split
            · exact hf
            · exact idsOk_withPara path s _ _ h

theorem idsOk_finalize (path : List Char) (mode : ScanMode) (s : ScanState)
    (h : IdsOk path s) : IdsOk path (finalizeMode path mode s) := by
  cases mode with
  | normal => exact h
  | inItem base ind mk acc st => exact idsOk_item _ _ _ _ _ _ h
  | inQuote acc st => exact idsOk_quote _ _ _ _ h

attribute [local irreducible] registerSegment flushParagraph normalStep
  registerItem registerQuote finalizeMode in
theorem idsOk_scanGo (path : List Char) (lines : List (List Char)) (n : Nat)
    (mode : ScanMode) (s : ScanState) (h : IdsOk path s) :
    IdsOk path (scanGo path lines n mode s) := by
  induction lines generalizing n mode s with
  | nil =>
    rw [scanGo]
    exact idsOk_flush _ _ (idsOk_finalize _ _ _ h)
  | cons l ls ih =>
    cases mode with
    | normal =>
      rw [scanGo]
      exact ih _ _ _ (idsOk_normalStep _ _ _ _ h)
    | inItem base ind mk acc st =>
      rw [scanGo]
      split
      · exact ih _ _ _ (idsOk_normalStep _ _ _ _ (idsOk_item _ _ _ _ _ _ h))
      · split
        · exact ih _ _ _ h
        · split
          · exact ih _ _ _ h
          · exact ih _ _ _ (idsOk_normalStep _ _ _ _ (idsOk_item _ _ _ _ _ _ h))
    | inQuote acc st =>
      rw [scanGo]
      split
      · exact ih _ _ _ h
      · split
        · exact ih _ _ _ h
        · exact ih _ _ _ (idsOk_normalStep _ _ _ _ (idsOk_quote _ _ _ _ h))

theorem idsOk_init (path : List Char) : IdsOk path initState := by
  refine ⟨?_, ?_⟩
  · intro seg hseg
    exact absurd hseg (List.not_mem_nil seg)
  · intro ctx bt hbt
    rfl

theorem nonheading_id (path : List Char) (s : ScanState) (h : IdsOk path s)
    (g : Segment) (hg : g ∈ s.segments) (ho : g.block_type ∈ otherKinds) :
    ∃ j, g.identifier
      = mkIdent path g.context_path (sfxOf g.block_type ++ '-' :: natChars (j + 1)) := by
  have hk := h.keyed g.context_path g.block_type ho
  have hgf : g ∈ s.segments.filter
      (fun x => decide (x.context_path = g.context_path
        ∧ x.block_type = g.block_type)) :=
    List.mem_filter.mpr ⟨hg, by simp⟩
  have hmem : g.identifier ∈ (s.segments.filter
      (fun x => decide (x.context_path = g.context_path
        ∧ x.block_type = g.block_type))).map (·.identifier) :=
    List.mem_map_of_mem _ hgf
  rw [hk] at hmem
  obtain ⟨j, _, he⟩ := List.mem_map.mp hmem
  exact ⟨j, he.symm⟩

theorem filter_pair_eq {α : Type} (p : α → Bool) (a b : α) (ha : p a = true)
    (hb : p b = true) : List.filter p [a, b] = [a, b] := by
  simp [List.filter_cons, ha, hb]

/-- C4, amended: the identifiers of one document's segments are pairwise
distinct provided the heading segments' context paths are pairwise
distinct (the hypothesis the slug disambiguation is meant to secure, but
does not always: see the counterexample theorem).  Non-heading
identifiers are unconditionally distinct, through the per-`(context,
block_type)` counters; heading identifiers are `{path}#{ctx}#title`, so
they collide exactly when their contexts do. -/
theorem C4_amended_identifier_uniqueness (markdown relPath : List Char)
    (hctx : List.Pairwise (· ≠ ·)
      (((collectMarkdownSegments markdown relPath).filter
          (fun g => g.block_type = "heading".data)).map (·.context_path))) :
    List.Pairwise (· ≠ ·)
      ((collectMarkdownSegments markdown relPath).map (·.identifier)) := by
  have hids : IdsOk relPath
      (scanGo relPath (splitLines markdown) 1 ScanMode.normal initState) :=
    idsOk_scanGo relPath (splitLines markdown) 1 ScanMode.normal initState
      (idsOk_init relPath)
  rw [List.pairwise_map]
  rw [List.pairwise_iff_forall_sublist]
  intro a b hab he
  have ha : a ∈ collectMarkdownSegments markdown relPath :=
    hab.subset (List.mem_cons_self a [b])
  have hb : b ∈ collectMarkdownSegments markdown relPath :=
    hab.subset (List.mem_cons_of_mem a (List.mem_cons_self b []))
  rcases hids.shape a ha with ⟨hha, hida⟩ | hoa
  · rcases hids.shape b hb with ⟨hhb, hidb⟩ | hob
    · rw [hida, hidb] at he
      obtain ⟨hceq, -⟩ := mkIdent_inj relPath _ _ _ _ hash_not_mem_title
        hash_not_mem_title he
      have hfil : List.Sublist [a, b]
          ((collectMarkdownSegments markdown relPath).filter
            (fun g => decide (g.block_type = "heading".data))) := by
        have h2 := List.Sublist.filter
          (fun g => decide (g.block_type = "heading".data)) hab
        rwa [show List.filter (fun g => decide (g.block_type = "heading".data))
            [a, b] = [a, b] from by
          simp [List.filter_cons, hha, hhb]] at h2
      have hmapsub : List.Sublist [a.context_path, b.context_path]
          (((collectMarkdownSegments markdown relPath).filter
            (fun g => decide (g.block_type = "heading".data))).map (·.context_path)) := by
        simpa using List.Sublist.map (·.context_path) hfil
      exact (List.pairwise_iff_forall_sublist.mp hctx hmapsub) hceq
    · obtain ⟨j, hidb⟩ := nonheading_id relPath _ hids b hb hob
      rw [hida, hidb] at he
      obtain ⟨-, hteq⟩ := mkIdent_inj relPath _ _ _ _ hash_not_mem_title
        (hash_not_mem_tail b.block_type hob (j + 1)) he
      exact title_ne_other_tail b.block_type hob (j + 1) hteq
  · rcases hids.shape b hb with ⟨hhb, hidb⟩ | hob
    · obtain ⟨j, hida⟩ := nonheading_id relPath _ hids a ha hoa
      rw [hida, hidb] at he
      obtain ⟨-, hteq⟩ := mkIdent_inj relPath _ _ _ _
        (hash_not_mem_tail a.block_type hoa (j + 1)) hash_not_mem_title he
      exact title_ne_other_tail a.block_type hoa (j + 1) hteq.symm
    · obtain ⟨j1, hida⟩ := nonheading_id relPath _ hids a ha hoa
      obtain ⟨j2, hidb⟩ := nonheading_id relPath _ hids b hb hob
      by_cases hsame : a.context_path = b.context_path
          ∧ a.block_type = b.block_type
      · have hk := hids.keyed a.context_path a.block_type hoa
        have hfil : List.Sublist [a, b]
            ((collectMarkdownSegments markdown relPath).filter
              (fun g => decide (g.context_path = a.context_path
                ∧ g.block_type = a.block_type))) := by
          have h2 := List.Sublist.filter
            (fun g => decide (g.context_path = a.context_path
              ∧ g.block_type = a.block_type)) hab
          rwa [filter_pair_eq _ a b (decide_eq_true ⟨rfl, rfl⟩)
            (decide_eq_true ⟨hsame.1.symm, hsame.2.symm⟩)] at h2
        have hmapsub : List.Sublist [a.identifier, b.identifier]
            ((List.range (lookupNat (scanGo relPath (splitLines markdown) 1
                ScanMode.normal initState).blockCounters
                (a.context_path, a.block_type))).map
              (fun j => mkIdent relPath a.context_path
                (sfxOf a.block_type ++ '-' :: natChars (j + 1)))) := by
          have h3 := List.Sublist.map (·.identifier) hfil
          rw [show collectMarkdownSegments markdown relPath
            = (scanGo relPath (splitLines markdown) 1
              ScanMode.normal initState).segments from rfl] at h3
          rw [hk] at h3
          simpa using h3
        have hnodup : ((List.range (lookupNat (scanGo relPath (splitLines markdown)
            1 ScanMode.normal initState).blockCounters
            (a.context_path, a.block_type))).map
              (fun j => mkIdent relPath a.context_path
                (sfxOf a.block_type ++ '-' :: natChars (j + 1)))).Nodup := by
          apply List.Nodup.map ?_ (List.nodup_range _)
          intro x y e
          obtain ⟨-, hteq⟩ := mkIdent_inj relPath _ _ _ _
            (hash_not_mem_tail a.block_type hoa (x + 1))
            (hash_not_mem_tail a.block_type hoa (y + 1)) e
          obtain ⟨-, hxy⟩ := other_tails_inj a.block_type a.block_type hoa hoa
            (x + 1) (y + 1) hteq
          omega
        exact (List.pairwise_iff_forall_sublist.mp hnodup hmapsub) he
      · rw [hida, hidb] at he
        obtain ⟨hceq, hteq⟩ := mkIdent_inj relPath _ _ _ _
          (hash_not_mem_tail a.block_type hoa (j1 + 1))
          (hash_not_mem_tail b.block_type hob (j2 + 1)) he
        obtain ⟨hbteq, -⟩ := other_tails_inj a.block_type b.block_type hoa hob
          (j1 + 1) (j2 + 1) hteq
        exact hsame ⟨hceq, hbteq⟩

theorem C4_witness :
    List.Pairwise (· ≠ ·)
        (((collectMarkdownSegments "# a\n\npara\n".data "doc.md".data).filter
            (fun g => g.block_type = "heading".data)).map (·.context_path))
      ∧ List.Pairwise (· ≠ ·)
        ((collectMarkdownSegments "# a\n\npara\n".data "doc.md".data).map
          (·.identifier)) := by
  refine ⟨by decide, ?_⟩
  exact C4_amended_identifier_uniqueness "# a\n\npara\n".data "doc.md".data
    (by decide)

end I18n
